import Mathlib

/-!
Verification development for the release/asset resolution core of the
repository (file `src/github/mod.rs`).

The Rust code is shallowly embedded: strings are Lean `String`s handled at
the character level, `std::collections::HashMap` is modelled as an
association list with distinct keys (insert replaces, remove deletes the
binding), fallible operations return `Option`/`Except`, and a `panic!`
(`unwrap` failure) is modelled as `none` at the point where it can occur.
-/

/-- Modelled from the spec: `UploadedFile` — name (string) and download URL
(string). The Rust `AssetDto` lives in `src/github/release.rs`, which is not
part of the sources provided; only its `name()` accessor is relevant here. -/
structure AssetDto where
  name : String
  download_url : String
deriving DecidableEq

/-- Embeds the Rust enum `ChecksumType` with variants `Sha256` and `Sha1`. -/
inductive ChecksumType where
  | sha256
  | sha1
deriving DecidableEq

/-- Embeds `ChecksumType::extension`. -/
def ChecksumType.extension : ChecksumType → String
  | .sha1 => ".sha1"
  | .sha256 => ".sha256"

/-- Characters after the last `'.'` of the list, `none` when no dot occurs.
Helper for embedding `Path::extension`. -/
def afterLastDot : List Char → Option (List Char)
  | [] => none
  | c :: rest =>
    match afterLastDot rest with
    | some e => some e
    | none => if c = '.' then some rest else none

/-- Embeds `Path::new(name).extension()` for a name that is a single normal
path component: the extension is the portion of the name after its final
`'.'`, except that a name whose only dot is its leading character (a hidden
file such as `".sha256"`) has no extension. A leading dot is therefore
ignored by searching for dots only after the first character. -/
def rustExtension (s : String) : Option String :=
  match s.data with
  | [] => none
  | _ :: rest => (afterLastDot rest).map (fun l => String.mk l)

/-- Embeds `ChecksumType::from_filename` (match on the extension, `"sha1"`
before `"sha256"`, anything else `None`). -/
def ChecksumType.from_filename (filename : String) : Option ChecksumType :=
  match rustExtension filename with
  | some ext =>
    if ext = "sha1" then some .sha1
    else if ext = "sha256" then some .sha256
    else none
  | none => none

/-- Removes `pre` from the front of `l`, `none` when `pre` is not a prefix.
Helper for the suffix stripping below (applied to reversed lists). -/
def dropPrefixCh : List Char → List Char → Option (List Char)
  | l, [] => some l
  | [], _ :: _ => none
  | c :: cs, p :: ps => if c = p then dropPrefixCh cs ps else none

/-- Embeds `str::strip_suffix`: `some` of the remaining front part exactly
when the string ends with the suffix. -/
def stripSuffix? (s suffix : String) : Option String :=
  (dropPrefixCh s.data.reverse suffix.data.reverse).map (fun l => String.mk l.reverse)

/-- Embeds `Asset` (a primary `AssetDto` plus optional checksum pair). -/
structure Asset where
  asset : AssetDto
  checksum : Option (ChecksumType × AssetDto)
deriving DecidableEq

/-- The checksum map of `assets_from_dtos`: an association-list model of the
Rust `HashMap<String, (ChecksumType, AssetDto)>`. -/
abbrev CMap : Type := List (String × ChecksumType × AssetDto)

/-- Deletes the binding of key `k`, keeping all others. -/
def cmErase : CMap → String → CMap
  | [], _ => []
  | e :: rest, k => if e.1 = k then cmErase rest k else e :: cmErase rest k

/-- Map lookup, as `HashMap::get`. -/
def cmLookup : CMap → String → Option (ChecksumType × AssetDto)
  | [], _ => none
  | e :: rest, k => if e.1 = k then some e.2 else cmLookup rest k

/-- Map insertion; replaces any existing binding of the key, as
`HashMap::insert` does. -/
def cmInsert (k : String) (v : ChecksumType × AssetDto) (m : CMap) : CMap :=
  (k, v) :: cmErase m k

/-- Map removal, as `HashMap::remove`: the removed value together with the
map without that binding. -/
def cmRemove (m : CMap) (k : String) : Option (ChecksumType × AssetDto) × CMap :=
  (cmLookup m k, cmErase m k)

/-- Embeds the first loop of `Asset::assets_from_dtos`: partition the input
into candidate primaries (in input order) and a checksum map keyed by the
stripped base name. `none` models the panic of the `unwrap` on
`strip_suffix`. -/
def buildMaps : List AssetDto → List AssetDto → CMap → Option (List AssetDto × CMap)
  | [], assets, checksums => some (assets, checksums)
  | dto :: rest, assets, checksums =>
    match ChecksumType.from_filename dto.name with
    | some checksum_type =>
      match stripSuffix? dto.name checksum_type.extension with
      | some name => buildMaps rest assets (cmInsert name (checksum_type, dto) checksums)
      | none => none
    | none => buildMaps rest (assets ++ [dto]) checksums

/-- Embeds the second loop of `Asset::assets_from_dtos`: each primary takes
(and removes) the checksum entry stored under its own name. -/
def pairAll (checksums : CMap) : List AssetDto → List Asset
  | [] => []
  | asset :: rest =>
    { asset := asset, checksum := (cmRemove checksums asset.name).1 } ::
      pairAll (cmRemove checksums asset.name).2 rest

/-- Embeds `Asset::assets_from_dtos`; `none` models a panic. -/
def assets_from_dtos (dtos : List AssetDto) : Option (List Asset) :=
  (buildMaps dtos [] []).map (fun r => pairAll r.2 r.1)

/-- The base name and kind under which a file would be stored in the
checksum map, `none` for files that are not checksum sidecars. -/
def sidecarEntry (d : AssetDto) : Option (String × ChecksumType) :=
  match ChecksumType.from_filename d.name with
  | some ct => (stripSuffix? d.name ct.extension).map (fun b => (b, ct))
  | none => none

/-- The candidate primary artifacts of a file list, in input order. -/
def primaries (l : List AssetDto) : List AssetDto :=
  l.filter (fun d => (ChecksumType.from_filename d.name).isNone)

/-- The last sidecar of the list whose stripped base name is `k`. -/
def findSidecar (k : String) : List AssetDto → Option (ChecksumType × AssetDto)
  | [] => none
  | d :: rest =>
    match findSidecar k rest with
    | some v => some v
    | none =>
      match sidecarEntry d with
      | some (b, ct) => if b = k then some (ct, d) else none
      | none => none

/-- The host-OS identifier enumeration supplied by the external
OS-introspection collaborator (the `os_info` crate's `Type`). -/
inductive OsType where
  | unknown
  | android
  | emscripten
  | linux
  | redhat
  | redHatEnterprise
  | ubuntu
  | pop
  | debian
  | arch
  | manjaro
  | centOS
  | fedora
  | amazon
  | suse
  | openSUSE
  | alpine
  | oracleLinux
  | solus
  | macos
  | redox
  | windows
deriving DecidableEq

/-- Modelled from the spec: which identifiers "denote a Linux-family
distribution". Linux itself and the concrete Linux distributions qualify;
Android, Macos, Redox, Windows, Unknown do not, and neither does
Emscripten (a WebAssembly toolchain environment, not a Linux
distribution). -/
def isLinuxFamily : OsType → Bool
  | .linux | .redhat | .redHatEnterprise | .ubuntu | .pop | .debian | .arch
  | .manjaro | .centOS | .fedora | .amazon | .suse | .openSUSE | .alpine
  | .oracleLinux | .solus => true
  | .unknown | .android | .emscripten | .macos | .redox | .windows => false

/-- Embeds `Release::compact_os_types` (the receiver is unused in the
source, so it is modelled as a standalone function). -/
def compact_os_types (os_type : OsType) : OsType :=
  match os_type with
  | .android => .android
  | .macos => .macos
  | .redox => .redox
  | .unknown => .unknown
  | .windows => .windows
  | _ => .linux

/-- Embeds the `GitHubApiError` enum; payloads of external origin are
dropped. -/
inductive GitHubApiError where
  | cannotDeserialize
  | requestError
  | cannotFindReleaseWithVersion (version : String)
  | rateLimitExceeded
  | wrongChecksum
  | invalidChecksum
  | download
  | io
deriving DecidableEq

/-- Embeds `Release`; the per-OS `HashMap` is an association list with
distinct keys, `SystemTime` an abstract `Nat`. -/
structure Release where
  version : String
  released_date : Nat
  releases_per_os : List (OsType × Asset)
  prerelease : Bool
deriving DecidableEq

/-- Embeds `Release::get_release_for_os`. -/
def Release.get_release_for_os (self : Release) (os_type : OsType) : Option Asset :=
  let compacted_os_type := compact_os_types os_type
  (self.releases_per_os.find? (fun e => decide (e.1 = compacted_os_type))).map (fun e => e.2)

/-- Embeds `Release::version_str`. -/
def Release.version_str (self : Release) : String :=
  self.version

/-- Byte-offset/character pairs of a string, starting at offset `i`.
Helper embedding Rust's `str::char_indices`. -/
def charIndicesFrom (i : Nat) : List Char → List (Nat × Char)
  | [] => []
  | c :: cs => (i, c) :: charIndicesFrom (i + c.utf8Size) cs

/-- Embeds `str::char_indices` (UTF-8 byte offsets). -/
def char_indices (s : String) : List (Nat × Char) :=
  charIndicesFrom 0 s.data

/-- Embeds the byte slice `s.get(i..)`: `some` of the suffix when byte
offset `i` is a character boundary (or the end), else `none`. -/
def getBytesFrom : List Char → Nat → Option (List Char)
  | l, 0 => some l
  | [], _ + 1 => none
  | c :: cs, i + 1 =>
    if i + 1 < c.utf8Size then none else getBytesFrom cs (i + 1 - c.utf8Size)

/-- Embeds `Release::without_first`: `char_indices().nth(1)`, then
`get(i..)`, with `""` as the fallback of `unwrap_or`. -/
def without_first (s : String) : String :=
  match (char_indices s)[1]? with
  | some (i, _) => (((getBytesFrom s.data i).map (fun l => String.mk l))).getD ""
  | none => ""

/-- Embeds `Release::version` (named `parsed_version` because the field
`version` occupies the name). `parse` stands for the external
`semver::Version::parse`, abstracted as a parameter; a `none` result models
the panic of the `unwrap` on a parse failure. -/
def Release.parsed_version {α : Type} (parse : String → Option α) (self : Release) : Option α :=
  parse (without_first self.version_str)

/-- Embeds `CachedReleases`. -/
structure CachedReleases where
  inner : List Release
deriving DecidableEq

/-- Embeds `CachedReleases::get_asset_for_current_os_by_version`; the host
OS returned by `os_info::get()` is passed explicitly as `current_os`. -/
def CachedReleases.get_asset_for_current_os_by_version
    (self : CachedReleases) (current_os : OsType) (version : String) :
    Except GitHubApiError (Option Asset) :=
  match self.inner.find? (fun x => decide (x.version = version)) with
  | none => .error (.cannotFindReleaseWithVersion version)
  | some release => .ok (release.get_release_for_os current_os)

theorem dropPrefixCh_append (a b : List Char) : dropPrefixCh (a ++ b) a = some b := by
  induction a with
  | nil => simp [dropPrefixCh]
  | cons c cs ih => simp [dropPrefixCh, ih]

theorem dropPrefixCh_eq_some : ∀ (l p r : List Char), dropPrefixCh l p = some r → l = p ++ r
  | l, [], r, h => by simpa [dropPrefixCh] using h
  | [], _ :: _, _, h => by simp [dropPrefixCh] at h
  | c :: cs, p :: ps, r, h => by
    by_cases hc : c = p
    · simp only [dropPrefixCh, if_pos hc] at h
      have := dropPrefixCh_eq_some cs ps r h
      simp [hc, this]
    · simp [dropPrefixCh, hc] at h

theorem stripSuffix?_append (t u : String) : stripSuffix? (t ++ u) u = some t := by
  unfold stripSuffix?
  rw [String.data_append, List.reverse_append, dropPrefixCh_append]
  simp only [Option.map_some', List.reverse_reverse]

theorem stripSuffix?_eq_some (s u b : String) (h : stripSuffix? s u = some b) : s = b ++ u := by
  unfold stripSuffix? at h
  cases hd : dropPrefixCh s.data.reverse u.data.reverse with
  | none => rw [hd] at h; simp at h
  | some r =>
    rw [hd] at h
    simp only [Option.map_some'] at h
    have hs := dropPrefixCh_eq_some _ _ _ hd
    apply String.ext
    have hb : b.data = r.reverse := by rw [← Option.some_inj.mp h]
    have : s.data = r.reverse ++ u.data := by
      have := congrArg List.reverse hs
      simpa using this
    rw [String.data_append, hb, this]

theorem afterLastDot_eq_some : ∀ (l r : List Char), afterLastDot l = some r →
    ∃ p, l = p ++ '.' :: r := by
  intro l
  induction l with
  | nil => intro r h; simp [afterLastDot] at h
  | cons c rest ih =>
    intro r h
    unfold afterLastDot at h
    cases hrec : afterLastDot rest with
    | some e =>
      rw [hrec] at h
      obtain ⟨p, hp⟩ := ih e hrec
      refine ⟨c :: p, ?_⟩
      simp [hp, Option.some_inj.mp h]
    | none =>
      rw [hrec] at h
      by_cases hc : c = '.'
      · simp only [if_pos hc] at h
        exact ⟨[], by simp [hc, Option.some_inj.mp h]⟩
      · simp [hc] at h

theorem afterLastDot_of_no_dot : ∀ (r : List Char), '.' ∉ r → afterLastDot r = none := by
  intro r
  induction r with
  | nil => intro; rfl
  | cons c cs ih =>
    intro h
    have hc : ¬ c = '.' := fun hh => h (by simp [hh])
    have hcs : afterLastDot cs = none := ih (fun hh => h (List.mem_cons_of_mem _ hh))
    simp [afterLastDot, hcs, hc]

theorem afterLastDot_append (r : List Char) (hr : '.' ∉ r) :
    ∀ (p : List Char), afterLastDot (p ++ '.' :: r) = some r := by
  intro p
  induction p with
  | nil => simp [afterLastDot, afterLastDot_of_no_dot r hr]
  | cons c cs ih => simp [afterLastDot, ih]

theorem rustExtension_append (t e : String) (ht : t ≠ "") (he : '.' ∉ e.data) :
    rustExtension (t ++ ("." ++ e)) = some e := by
  obtain ⟨c, p, hsd⟩ : ∃ c p, t.data = c :: p := by
    cases htd : t.data with
    | nil => exact absurd (String.ext htd) ht
    | cons c p => exact ⟨c, p, rfl⟩
  have hdata : (t ++ ("." ++ e)).data = c :: (p ++ '.' :: e.data) := by
    rw [String.data_append, String.data_append, hsd]
    rfl
  unfold rustExtension
  rw [hdata]
  simp only [afterLastDot_append e.data he p, Option.map_some']

theorem rustExtension_eq_some (s e : String) (h : rustExtension s = some e) :
    ∃ t, t ≠ "" ∧ s = t ++ ("." ++ e) := by
  cases hsd : s.data with
  | nil =>
    have hnone : rustExtension s = none := by unfold rustExtension; rw [hsd]
    rw [hnone] at h
    simp at h
  | cons c rest =>
    have hcons : rustExtension s = (afterLastDot rest).map (fun l => String.mk l) := by
      unfold rustExtension; rw [hsd]
    rw [hcons] at h
    cases had : afterLastDot rest with
    | none => rw [had] at h; simp at h
    | some l =>
      rw [had] at h
      simp only [Option.map_some', Option.some_inj] at h
      obtain ⟨p, hp⟩ := afterLastDot_eq_some rest l had
      refine ⟨String.mk (c :: p), ?_, ?_⟩
      · intro heq
        have := congrArg String.data heq
        simp at this
      · apply String.ext
        rw [String.data_append, String.data_append, hsd, hp]
        have hl : l = e.data := by rw [← h]
        simp [hl]

theorem from_filename_append (t : String) (ct : ChecksumType) (ht : t ≠ "") :
    ChecksumType.from_filename (t ++ ct.extension) = some ct := by
  cases ct with
  | sha1 =>
    have hre : rustExtension (t ++ ChecksumType.sha1.extension) = some "sha1" :=
      rustExtension_append t "sha1" ht (by decide)
    unfold ChecksumType.from_filename
    rw [hre]
    rfl
  | sha256 =>
    have hre : rustExtension (t ++ ChecksumType.sha256.extension) = some "sha256" :=
      rustExtension_append t "sha256" ht (by decide)
    unfold ChecksumType.from_filename
    rw [hre]
    rfl

theorem from_filename_some_decomp (s : String) (ct : ChecksumType)
    (h : ChecksumType.from_filename s = some ct) :
    ∃ t, t ≠ "" ∧ s = t ++ ct.extension := by
  unfold ChecksumType.from_filename at h
  cases hre : rustExtension s with
  | none => rw [hre] at h; simp at h
  | some e =>
    rw [hre] at h
    have he : (e = "sha1" ∧ ct = .sha1) ∨ (e = "sha256" ∧ ct = .sha256) := by
      by_cases h1 : e = "sha1"
      · simp only [if_pos h1, Option.some_inj] at h
        exact Or.inl ⟨h1, h.symm⟩
      · by_cases h2 : e = "sha256"
        · simp only [if_neg h1, if_pos h2, Option.some_inj] at h
          exact Or.inr ⟨h2, h.symm⟩
        · simp [h1, h2] at h
    obtain ⟨t, ht, hs⟩ := rustExtension_eq_some s e hre
    rcases he with ⟨he1, hct⟩ | ⟨he1, hct⟩ <;> subst hct <;> subst he1 <;>
      exact ⟨t, ht, hs⟩

theorem stripSuffix?_of_from_filename (s : String) (ct : ChecksumType)
    (h : ChecksumType.from_filename s = some ct) :
    ∃ t, t ≠ "" ∧ stripSuffix? s ct.extension = some t := by
  obtain ⟨t, ht, hs⟩ := from_filename_some_decomp s ct h
  exact ⟨t, ht, by rw [hs]; exact stripSuffix?_append t _⟩

theorem buildMaps_isSome : ∀ (l as : List AssetDto) (m : CMap),
    (buildMaps l as m).isSome = true := by
  intro l
  induction l with
  | nil => intro as m; rfl
  | cons d rest ih =>
    intro as m
    cases hcf : ChecksumType.from_filename d.name with
    | none =>
      simp only [buildMaps, hcf]
      exact ih (as ++ [d]) m
    | some ct =>
      obtain ⟨t, _, hst⟩ := stripSuffix?_of_from_filename d.name ct hcf
      simp only [buildMaps, hcf, hst]
      exact ih as _

/-- The checksum map accumulated by the partition loop, as a standalone
function (the loop never panics, see `buildMaps_isSome`). -/
def buildCM : List AssetDto → CMap → CMap
  | [], m => m
  | d :: rest, m =>
    match sidecarEntry d with
    | some (b, ct) => buildCM rest (cmInsert b (ct, d) m)
    | none => buildCM rest m

theorem buildMaps_eq : ∀ (l as : List AssetDto) (m : CMap),
    buildMaps l as m = some (as ++ primaries l, buildCM l m) := by
  intro l
  induction l with
  | nil => intro as m; simp [buildMaps, buildCM, primaries]
  | cons d rest ih =>
    intro as m
    cases hcf : ChecksumType.from_filename d.name with
    | none =>
      have hside : sidecarEntry d = none := by simp [sidecarEntry, hcf]
      simp only [buildMaps, hcf, buildCM, hside, primaries, List.filter_cons,
        Option.isNone_none]
      rw [ih]
      simp [primaries, hcf]
    | some ct =>
      obtain ⟨t, _, hst⟩ := stripSuffix?_of_from_filename d.name ct hcf
      have hside : sidecarEntry d = some (t, ct) := by simp [sidecarEntry, hcf, hst]
      simp only [buildMaps, hcf, hst, buildCM, hside]
      rw [ih]
      simp [primaries, List.filter_cons, hcf]


theorem cmLookup_erase_ne (b k : String) (hk : k ≠ b) : ∀ (m : CMap),
    cmLookup (cmErase m b) k = cmLookup m k := by
  intro m
  induction m with
  | nil => rfl
  | cons e rest ih =>
    by_cases heb : e.1 = b
    · have hek : ¬ e.1 = k := fun hh => hk (hh ▸ heb)
      simp only [cmErase, if_pos heb, cmLookup, if_neg hek]
      exact ih
    · simp only [cmErase, if_neg heb, cmLookup]
      by_cases hek : e.1 = k
      · simp only [if_pos hek]
      · simp only [if_neg hek]
        exact ih

theorem cmLookup_insert (m : CMap) (b k : String) (v : ChecksumType × AssetDto) :
    cmLookup (cmInsert b v m) k = if b = k then some v else cmLookup m k := by
  unfold cmInsert
  by_cases hbk : b = k
  · simp only [cmLookup, if_pos hbk]
  · simp only [cmLookup, if_neg hbk]
    exact cmLookup_erase_ne b k (fun hh => hbk hh.symm) m

theorem cmLookup_mem : ∀ (m : CMap) (k : String) (v : ChecksumType × AssetDto),
    cmLookup m k = some v → (k, v) ∈ m := by
  intro m
  induction m with
  | nil => intro k v h; simp [cmLookup] at h
  | cons e rest ih =>
    intro k v h
    by_cases hek : e.1 = k
    · simp only [cmLookup, if_pos hek, Option.some_inj] at h
      refine List.mem_cons.mpr (Or.inl ?_)
      rw [← hek, ← h]
    · simp only [cmLookup, if_neg hek] at h
      exact List.mem_cons_of_mem _ (ih k v h)

theorem cmErase_subset : ∀ (m : CMap) (k : String) (e : String × ChecksumType × AssetDto),
    e ∈ cmErase m k → e ∈ m := by
  intro m
  induction m with
  | nil => intro k e h; simp [cmErase] at h
  | cons e0 rest ih =>
    intro k e h
    by_cases he0 : e0.1 = k
    · simp only [cmErase, if_pos he0] at h
      exact List.mem_cons_of_mem _ (ih k e h)
    · simp only [cmErase, if_neg he0] at h
      rcases List.mem_cons.mp h with heq | hmem
      · exact heq ▸ List.mem_cons_self e0 rest
      · exact List.mem_cons_of_mem _ (ih k e hmem)

theorem cmLookup_buildCM : ∀ (l : List AssetDto) (m : CMap) (k : String),
    cmLookup (buildCM l m) k =
      match findSidecar k l with
      | some v => some v
      | none => cmLookup m k := by
  intro l
  induction l with
  | nil => intro m k; rfl
  | cons d rest ih =>
    intro m k
    cases hse : sidecarEntry d with
    | some bv =>
      obtain ⟨b, ct⟩ := bv
      simp only [buildCM, hse]
      rw [ih]
      cases hfs : findSidecar k rest with
      | some v => simp [findSidecar, hfs, hse]
      | none =>
        rw [cmLookup_insert]
        simp only [findSidecar, hfs, hse]
        by_cases hbk : b = k
        · simp [hbk]
        · simp [hbk]
    | none =>
      simp only [buildCM, hse]
      rw [ih]
      cases hfs : findSidecar k rest with
      | some v => simp [findSidecar, hfs, hse]
      | none => simp [findSidecar, hfs, hse]

theorem buildMaps_assets_mem : ∀ (l as : List AssetDto) (m : CMap)
    (as' : List AssetDto) (m' : CMap), buildMaps l as m = some (as', m') →
    ∀ a ∈ as', a ∈ as ∨ (a ∈ l ∧ ChecksumType.from_filename a.name = none) := by
  intro l
  induction l with
  | nil =>
    intro as m as' m' h a ha
    simp only [buildMaps, Option.some_inj, Prod.mk.injEq] at h
    exact Or.inl (h.1 ▸ ha)
  | cons d rest ih =>
    intro as m as' m' h a ha
    cases hcf : ChecksumType.from_filename d.name with
    | some ct =>
      cases hst : stripSuffix? d.name ct.extension with
      | none =>
        simp only [buildMaps, hcf, hst] at h
        exact Option.noConfusion h
      | some t =>
        simp only [buildMaps, hcf, hst] at h
        rcases ih _ _ _ _ h a ha with hl | ⟨hr, hn⟩
        · exact Or.inl hl
        · exact Or.inr ⟨List.mem_cons_of_mem _ hr, hn⟩
    | none =>
      simp only [buildMaps, hcf] at h
      rcases ih _ _ _ _ h a ha with hl | ⟨hr, hn⟩
      · rcases List.mem_append.mp hl with h1 | h2
        · exact Or.inl h1
        · have had : a = d := by simpa using h2
          exact Or.inr ⟨had ▸ List.mem_cons_self d rest, had ▸ hcf⟩
      · exact Or.inr ⟨List.mem_cons_of_mem _ hr, hn⟩

theorem buildMaps_cmap_mem : ∀ (l as : List AssetDto) (m : CMap)
    (as' : List AssetDto) (m' : CMap), buildMaps l as m = some (as', m') →
    ∀ (k : String) (ct : ChecksumType) (d : AssetDto), (k, ct, d) ∈ m' →
    (k, ct, d) ∈ m ∨ (d ∈ l ∧ ChecksumType.from_filename d.name = some ct ∧
      stripSuffix? d.name ct.extension = some k) := by
  intro l
  induction l with
  | nil =>
    intro as m as' m' h k ct d hm
    simp only [buildMaps, Option.some_inj, Prod.mk.injEq] at h
    exact Or.inl (h.2 ▸ hm)
  | cons d0 rest ih =>
    intro as m as' m' h k ct d hm
    cases hcf : ChecksumType.from_filename d0.name with
    | some ct0 =>
      cases hst : stripSuffix? d0.name ct0.extension with
      | none =>
        simp only [buildMaps, hcf, hst] at h
        exact Option.noConfusion h
      | some t =>
        simp only [buildMaps, hcf, hst] at h
        rcases ih _ _ _ _ h k ct d hm with hins | ⟨hr, hn⟩
        · rcases List.mem_cons.mp hins with heq | hfil
          · have h1 : k = t ∧ ct = ct0 ∧ d = d0 := by
              simpa [Prod.mk.injEq] using heq
            refine Or.inr ⟨h1.2.2 ▸ List.mem_cons_self d0 rest, ?_, ?_⟩
            · rw [h1.2.2, hcf, h1.2.1]
            · rw [h1.2.2, h1.2.1, hst, h1.1]
          · exact Or.inl (cmErase_subset _ _ _ hfil)
        · exact Or.inr ⟨List.mem_cons_of_mem _ hr, hn⟩
    | none =>
      simp only [buildMaps, hcf] at h
      rcases ih _ _ _ _ h k ct d hm with hins | ⟨hr, hn⟩
      · exact Or.inl hins
      · exact Or.inr ⟨List.mem_cons_of_mem _ hr, hn⟩

theorem pairAll_mem : ∀ (as : List AssetDto) (m : CMap) (a : Asset),
    a ∈ pairAll m as → a.asset ∈ as ∧
    ∀ (ct : ChecksumType) (d : AssetDto), a.checksum = some (ct, d) →
      (a.asset.name, ct, d) ∈ m := by
  intro as
  induction as with
  | nil => intro m a ha; simp [pairAll] at ha
  | cons p rest ih =>
    intro m a ha
    rcases List.mem_cons.mp ha with heq | hmem
    · subst heq
      refine ⟨List.mem_cons_self p rest, ?_⟩
      intro ct d hcd
      simp only [cmRemove] at hcd
      exact cmLookup_mem m p.name (ct, d) hcd
    · have hres := ih _ a hmem
      refine ⟨List.mem_cons_of_mem _ hres.1, ?_⟩
      intro ct d hcd
      exact cmErase_subset _ _ _ (hres.2 ct d hcd)

theorem pairAll_eq_map : ∀ (as : List AssetDto) (m : CMap),
    (as.map AssetDto.name).Nodup →
    pairAll m as = as.map (fun a => { asset := a, checksum := cmLookup m a.name }) := by
  intro as
  induction as with
  | nil => intro m _; rfl
  | cons p rest ih =>
    intro m hnd
    rw [List.map_cons, List.nodup_cons] at hnd
    simp only [pairAll, cmRemove, List.map_cons, List.cons.injEq]
    refine ⟨trivial, ?_⟩
    rw [ih _ hnd.2]
    refine List.map_congr_left ?_
    intro a ha
    have hne : a.name ≠ p.name := by
      intro hh
      exact hnd.1 (List.mem_map.mpr ⟨a, ha, hh⟩)
    rw [cmLookup_erase_ne p.name a.name hne m]

theorem findSidecar_eq_some : ∀ (l : List AssetDto) (k : String) (ct : ChecksumType)
    (d : AssetDto), findSidecar k l = some (ct, d) →
    d ∈ l ∧ sidecarEntry d = some (k, ct) := by
  intro l
  induction l with
  | nil => intro k ct d h; simp [findSidecar] at h
  | cons d0 rest ih =>
    intro k ct d h
    cases hfs : findSidecar k rest with
    | some v =>
      simp only [findSidecar, hfs] at h
      obtain ⟨hm, hs⟩ := ih k ct d (hfs.trans h)
      exact ⟨List.mem_cons_of_mem _ hm, hs⟩
    | none =>
      simp only [findSidecar, hfs] at h
      cases hse : sidecarEntry d0 with
      | none => rw [hse] at h; simp at h
      | some bv =>
        obtain ⟨b, ct0⟩ := bv
        simp only [hse] at h
        by_cases hbk : b = k
        · rw [if_pos hbk] at h
          have h1 : ct0 = ct ∧ d0 = d := by simpa [Prod.mk.injEq] using h
          refine ⟨h1.2 ▸ List.mem_cons_self d0 rest, ?_⟩
          rw [← h1.2, hse, hbk, h1.1]
        · rw [if_neg hbk] at h
          exact absurd h (by simp)

theorem findSidecar_eq_none : ∀ (l : List AssetDto) (k : String),
    findSidecar k l = none →
    ∀ d ∈ l, ∀ ct, sidecarEntry d ≠ some (k, ct) := by
  intro l
  induction l with
  | nil => intro k _ d hd; simp at hd
  | cons d0 rest ih =>
    intro k h d hd ct hcontra
    cases hfs : findSidecar k rest with
    | some v =>
      simp only [findSidecar, hfs] at h
      exact Option.noConfusion h
    | none =>
      simp only [findSidecar, hfs] at h
      rcases List.mem_cons.mp hd with heq | hmem
      · subst heq
        rw [hcontra] at h
        simp at h
      · exact ih k hfs d hmem ct hcontra

theorem nodup_filterMap_inj {α β : Type} [DecidableEq β] (f : α → Option β) :
    ∀ (l : List α), (l.filterMap f).Nodup →
    ∀ d1 ∈ l, ∀ d2 ∈ l, ∀ k, f d1 = some k → f d2 = some k → d1 = d2 := by
  intro l
  induction l with
  | nil => intro _ d1 h1; simp at h1
  | cons a rest ih =>
    intro hnd d1 h1 d2 h2 k hf1 hf2
    cases hfa : f a with
    | some b =>
      rw [List.filterMap_cons_some hfa, List.nodup_cons] at hnd
      rcases List.mem_cons.mp h1 with rfl | hm1 <;> rcases List.mem_cons.mp h2 with rfl | hm2
      · rfl
      · exfalso
        have hkb : b = k := by rw [hfa] at hf1; exact Option.some_inj.mp hf1
        exact hnd.1 (hkb ▸ List.mem_filterMap.mpr ⟨d2, hm2, hf2⟩)
      · exfalso
        have hkb : b = k := by rw [hfa] at hf2; exact Option.some_inj.mp hf2
        exact hnd.1 (hkb ▸ List.mem_filterMap.mpr ⟨d1, hm1, hf1⟩)
      · exact ih hnd.2 d1 hm1 d2 hm2 k hf1 hf2
    | none =>
      rw [List.filterMap_cons_none hfa] at hnd
      rcases List.mem_cons.mp h1 with rfl | hm1
      · rw [hfa] at hf1; exact absurd hf1 (by simp)
      · rcases List.mem_cons.mp h2 with rfl | hm2
        · rw [hfa] at hf2; exact absurd hf2 (by simp)
        · exact ih hnd d1 hm1 d2 hm2 k hf1 hf2

theorem findSidecar_perm (l1 l2 : List AssetDto) (hperm : l1.Perm l2)
    (hbases : (l1.filterMap (fun d => (sidecarEntry d).map (fun e => e.1))).Nodup)
    (k : String) : findSidecar k l1 = findSidecar k l2 := by
  cases h1 : findSidecar k l1 with
  | none =>
    cases h2 : findSidecar k l2 with
    | none => rfl
    | some v =>
      obtain ⟨ct, d⟩ := v
      obtain ⟨hm, hs⟩ := findSidecar_eq_some l2 k ct d h2
      exact absurd hs (findSidecar_eq_none l1 k h1 d (hperm.mem_iff.mpr hm) ct)
  | some v =>
    obtain ⟨ct1, d1⟩ := v
    obtain ⟨hm1, hs1⟩ := findSidecar_eq_some l1 k ct1 d1 h1
    cases h2 : findSidecar k l2 with
    | none =>
      exact absurd hs1 (findSidecar_eq_none l2 k h2 d1 (hperm.mem_iff.mp hm1) ct1)
    | some w =>
      obtain ⟨ct2, d2⟩ := w
      obtain ⟨hm2, hs2⟩ := findSidecar_eq_some l2 k ct2 d2 h2
      have hd12 : d1 = d2 := by
        refine nodup_filterMap_inj _ l1 hbases d1 hm1 d2 (hperm.mem_iff.mpr hm2) k ?_ ?_
        · rw [hs1]; rfl
        · rw [hs2]; rfl
      subst hd12
      have : some (k, ct1) = some (k, ct2) := hs1.symm.trans hs2
      have hct : ct1 = ct2 := by simpa using this
      rw [hct]

theorem assets_from_dtos_eq (l : List AssetDto) :
    assets_from_dtos l = some (pairAll (buildCM l []) (primaries l)) := by
  unfold assets_from_dtos
  rw [buildMaps_eq]
  simp

/-- C9: the pairing operation `assets_from_dtos` never panics — in the
embedding, the `none` that models the panic of the `unwrap` on
`strip_suffix` is unreachable, because a file classified as a sidecar of
kind `K` always has a name that ends with `K`'s suffix. -/
theorem c9_assets_from_dtos_never_panics (dtos : List AssetDto) :
    (assets_from_dtos dtos).isSome = true := by
  have h := buildMaps_isSome dtos [] []
  unfold assets_from_dtos
  cases hb : buildMaps dtos [] [] with
  | none => rw [hb] at h; simp at h
  | some r => simp [hb]

/-- C3 counterexample: the filename `".sha256"` ends in `".sha256"` (its
`strip_suffix` against that suffix succeeds, with empty remainder), yet
`from_filename` classifies it as `none`, because `Path::extension` treats a
name whose only dot is the leading character as having no extension. -/
theorem c3_counterexample :
    stripSuffix? ".sha256" ".sha256" = some "" ∧
    ChecksumType.from_filename ".sha256" = none := by
  exact ⟨by decide, by decide⟩

/-- C3 amended: `from_filename` returns kind `ct` exactly when the filename
ends in `ct`'s suffix with a nonempty base name in front of it (so the bare
names `".sha1"` and `".sha256"` classify as none, as does everything not of
this shape). -/
theorem c3_from_filename_iff (s : String) (ct : ChecksumType) :
    ChecksumType.from_filename s = some ct ↔ ∃ t, t ≠ "" ∧ s = t ++ ct.extension := by
  constructor
  · exact from_filename_some_decomp s ct
  · rintro ⟨t, ht, rfl⟩
    exact from_filename_append t ct ht

/-- C3 witness: the amended classification at concrete inputs. -/
theorem c3_witness : ChecksumType.from_filename "a.sha1" = some ChecksumType.sha1 :=
  (c3_from_filename_iff "a.sha1" ChecksumType.sha1).mpr ⟨"a", by decide, by decide⟩

/-- C2 counterexample: Emscripten is not a Linux-family distribution, yet
`compact_os_types` maps it to the Linux bucket (the wildcard arm collapses
every identifier outside the five pass-through cases). -/
theorem c2_counterexample :
    compact_os_types OsType.emscripten = OsType.linux ∧
    isLinuxFamily OsType.emscripten = false :=
  ⟨rfl, rfl⟩

/-- C2 amended: Android, Macos, Redox, Unknown and Windows pass through
unchanged, and every other identifier — Linux-family or not — is mapped to
the Linux bucket. -/
theorem c2_compact_os_types_amended (o : OsType) :
    compact_os_types o =
      if o = .android ∨ o = .macos ∨ o = .redox ∨ o = .unknown ∨ o = .windows
      then o else .linux := by
  cases o <;> decide

/-- C1 counterexample: two permutations of the same three files (a primary
and both a `.sha1` and a `.sha256` sidecar for it) yield different
association sets — the checksum kind attached to the primary depends on
input order, and the two singleton outputs are not permutations of each
other. -/
theorem c1_counterexample :
    ([⟨"a", "u"⟩, ⟨"a.sha1", "v"⟩, ⟨"a.sha256", "w"⟩] : List AssetDto).Perm
      [⟨"a", "u"⟩, ⟨"a.sha256", "w"⟩, ⟨"a.sha1", "v"⟩] ∧
    assets_from_dtos [⟨"a", "u"⟩, ⟨"a.sha1", "v"⟩, ⟨"a.sha256", "w"⟩] =
      some [⟨⟨"a", "u"⟩, some (.sha256, ⟨"a.sha256", "w"⟩)⟩] ∧
    assets_from_dtos [⟨"a", "u"⟩, ⟨"a.sha256", "w"⟩, ⟨"a.sha1", "v"⟩] =
      some [⟨⟨"a", "u"⟩, some (.sha1, ⟨"a.sha1", "v"⟩)⟩] ∧
    ¬ ([⟨⟨"a", "u"⟩, some (.sha256, ⟨"a.sha256", "w"⟩)⟩] : List Asset).Perm
      [⟨⟨"a", "u"⟩, some (.sha1, ⟨"a.sha1", "v"⟩)⟩] := by
  refine ⟨List.Perm.cons _ (List.Perm.swap _ _ _), by decide, by decide, ?_⟩
  intro hperm
  have hm := hperm.mem_iff.mp
    (List.mem_cons_self (⟨⟨"a", "u"⟩, some (.sha256, ⟨"a.sha256", "w"⟩)⟩ : Asset) [])
  simp only [List.mem_cons, List.not_mem_nil, or_false] at hm
  exact absurd hm (by decide)

/-- C1 amended: when no two files share a name and no two sidecars map to
the same stripped base name (the tie-break situation of the spec), the
pairing output is permutation-invariant: any two permutations of the input
produce the same set of (primary, checksum-pair) associations. -/
theorem c1_assets_from_dtos_perm (l1 l2 : List AssetDto)
    (hperm : l1.Perm l2)
    (hnames : (l1.map AssetDto.name).Nodup)
    (hbases : (l1.filterMap (fun d => (sidecarEntry d).map (fun e => e.1))).Nodup) :
    ∃ o1 o2, assets_from_dtos l1 = some o1 ∧ assets_from_dtos l2 = some o2 ∧
      o1.Perm o2 := by
  refine ⟨_, _, assets_from_dtos_eq l1, assets_from_dtos_eq l2, ?_⟩
  have hnames2 : (l2.map AssetDto.name).Nodup :=
    (hperm.map AssetDto.name).nodup_iff.mp hnames
  have hp1 : ((primaries l1).map AssetDto.name).Nodup :=
    hnames.sublist ((List.filter_sublist l1).map AssetDto.name)
  have hp2 : ((primaries l2).map AssetDto.name).Nodup :=
    hnames2.sublist ((List.filter_sublist l2).map AssetDto.name)
  rw [pairAll_eq_map _ _ hp1, pairAll_eq_map _ _ hp2]
  have hfun : ∀ k, cmLookup (buildCM l1 []) k = cmLookup (buildCM l2 []) k := by
    intro k
    rw [cmLookup_buildCM, cmLookup_buildCM, findSidecar_perm l1 l2 hperm hbases k]
  have hpperm : (primaries l1).Perm (primaries l2) := hperm.filter _
  refine (hpperm.map _).trans ?_
  have heq : (primaries l2).map
      (fun a => ({ asset := a, checksum := cmLookup (buildCM l1 []) a.name } : Asset)) =
      (primaries l2).map
      (fun a => ({ asset := a, checksum := cmLookup (buildCM l2 []) a.name } : Asset)) :=
    List.map_congr_left (fun a _ => by rw [hfun a.name])
  rw [heq]

/-- C1 witness: the amended invariance at a concrete two-file input and its
transposition. -/
theorem c1_witness :
    ∃ o1 o2, assets_from_dtos [⟨"a", "u"⟩, ⟨"a.sha256", "w"⟩] = some o1 ∧
      assets_from_dtos [⟨"a.sha256", "w"⟩, ⟨"a", "u"⟩] = some o2 ∧ o1.Perm o2 :=
  c1_assets_from_dtos_perm _ _ (List.Perm.swap _ _ _) (by decide) (by decide)

/-- C6: a checksum sidecar whose stripped base name matches no primary
file's name is silently dropped by the pairing: it appears in the output
neither as a primary artifact nor inside any artifact's checksum pair (and
the pairing still succeeds, see `c9_assets_from_dtos_never_panics`). -/
theorem c6_unmatched_sidecar_dropped (dtos : List AssetDto) (out : List Asset)
    (hout : assets_from_dtos dtos = some out)
    (d : AssetDto) (b : String) (ct : ChecksumType)
    (hside : sidecarEntry d = some (b, ct))
    (hnoprim : ∀ p ∈ dtos, ChecksumType.from_filename p.name = none → p.name ≠ b) :
    ∀ a ∈ out, a.asset ≠ d ∧
      ∀ (ct' : ChecksumType) (d' : AssetDto), a.checksum = some (ct', d') → d' ≠ d := by
  have hbm : buildMaps dtos [] [] = some (primaries dtos, buildCM dtos []) := by
    have := buildMaps_eq dtos [] []
    simpa using this
  have hout' : out = pairAll (buildCM dtos []) (primaries dtos) := by
    rw [assets_from_dtos_eq dtos] at hout
    exact (Option.some_inj.mp hout).symm
  intro a ha
  rw [hout'] at ha
  have hpm := pairAll_mem (primaries dtos) (buildCM dtos []) a ha
  have hassets := buildMaps_assets_mem dtos [] [] _ _ hbm a.asset hpm.1
  rcases hassets with h0 | ⟨hmem, hnone⟩
  · simp at h0
  constructor
  · intro had
    rw [had] at hnone
    unfold sidecarEntry at hside
    rw [hnone] at hside
    exact Option.noConfusion hside
  · intro ct' d' hcd hd'
    subst hd'
    have hm' := hpm.2 ct' d' hcd
    rcases buildMaps_cmap_mem dtos [] [] _ _ hbm a.asset.name ct' d' hm' with
      h0 | ⟨_, hcf, hst⟩
    · simp at h0
    · have hside2 : sidecarEntry d' = some (a.asset.name, ct') := by
        unfold sidecarEntry
        rw [hcf]
        show (stripSuffix? d'.name ct'.extension).map (fun b => (b, ct')) =
          some (a.asset.name, ct')
        rw [hst]
        rfl
      rw [hside] at hside2
      have hb : b = a.asset.name ∧ ct = ct' := by simpa [Prod.mk.injEq] using hside2
      exact (hnoprim a.asset hmem hnone) hb.1.symm

/-- C6 witness: the sidecar `a.sha256` has no matching primary (`b` is the
only primary) and the single output artifact is not that sidecar. -/
theorem c6_witness :
    (⟨⟨"b", "u0"⟩, none⟩ : Asset).asset ≠ (⟨"a.sha256", "u1"⟩ : AssetDto) :=
  (c6_unmatched_sidecar_dropped [⟨"b", "u0"⟩, ⟨"a.sha256", "u1"⟩]
    [⟨⟨"b", "u0"⟩, none⟩] (by decide) ⟨"a.sha256", "u1"⟩ "a" ChecksumType.sha256
    (by decide) (by decide) ⟨⟨"b", "u0"⟩, none⟩ (by decide)).1

/-- C7: every artifact in the pairing output that carries a checksum pair of
kind `ct` is paired with a file whose name is exactly the artifact's name
with `ct`'s suffix appended. -/
theorem c7_checksum_name_invariant (dtos : List AssetDto) (out : List Asset)
    (hout : assets_from_dtos dtos = some out) :
    ∀ a ∈ out, ∀ (ct : ChecksumType) (d : AssetDto), a.checksum = some (ct, d) →
      d.name = a.asset.name ++ ct.extension := by
  have hbm : buildMaps dtos [] [] = some (primaries dtos, buildCM dtos []) := by
    have := buildMaps_eq dtos [] []
    simpa using this
  have hout' : out = pairAll (buildCM dtos []) (primaries dtos) := by
    rw [assets_from_dtos_eq dtos] at hout
    exact (Option.some_inj.mp hout).symm
  intro a ha ct d hcd
  rw [hout'] at ha
  have hpm := pairAll_mem (primaries dtos) (buildCM dtos []) a ha
  have hm' := hpm.2 ct d hcd
  rcases buildMaps_cmap_mem dtos [] [] _ _ hbm a.asset.name ct d hm' with
    h0 | ⟨_, _, hst⟩
  · simp at h0
  · exact stripSuffix?_eq_some d.name ct.extension a.asset.name hst

/-- C7 witness: the invariant at a concrete paired output — the paired
sidecar's name is the artifact's name with the SHA-1 suffix appended. -/
theorem c7_witness : ("t.sha1" : String) = "t" ++ ChecksumType.sha1.extension :=
  c7_checksum_name_invariant [⟨"t", "u"⟩, ⟨"t.sha1", "v"⟩]
    [⟨⟨"t", "u"⟩, some (.sha1, ⟨"t.sha1", "v"⟩)⟩] (by decide)
    ⟨⟨"t", "u"⟩, some (.sha1, ⟨"t.sha1", "v"⟩)⟩ (by decide)
    ChecksumType.sha1 ⟨"t.sha1", "v"⟩ (by decide)

theorem without_first_drop (s : String) : without_first s = String.mk (s.data.drop 1) := by
  cases hd : s.data with
  | nil =>
    have hci : (char_indices s)[1]? = none := by
      unfold char_indices
      rw [hd]
      rfl
    unfold without_first
    rw [hci, hd]
    rfl
  | cons c cs =>
    cases cs with
    | nil =>
      have hci : (char_indices s)[1]? = none := by
        unfold char_indices
        rw [hd]
        rfl
      unfold without_first
      rw [hci, hd]
      rfl
    | cons c2 cs2 =>
      have hci : (char_indices s)[1]? = some (c.utf8Size, c2) := by
        unfold char_indices
        rw [hd]
        simp [charIndicesFrom]
      unfold without_first
      rw [hci, hd]
      show ((getBytesFrom (c :: c2 :: cs2) c.utf8Size).map (fun l => String.mk l)).getD "" =
        String.mk ((c :: c2 :: cs2).drop 1)
      have hgb : getBytesFrom (c :: c2 :: cs2) c.utf8Size = some (c2 :: cs2) := by
        have hpos := Char.utf8Size_pos c
        obtain ⟨k, hk⟩ := Nat.exists_eq_succ_of_ne_zero (Nat.pos_iff_ne_zero.mp hpos)
        rw [hk]
        simp only [getBytesFrom]
        rw [hk, if_neg (Nat.lt_irrefl _), Nat.sub_self]
        rfl
      rw [hgb]
      rfl

/-- C8: the semantic-version accessor parses the stored version string with
exactly its first character removed (the leading tag marker); the embedding
returns `parse` applied to that remainder, where a `none` result models the
panic of the `unwrap` — a fatal failure, not a recoverable error value. The
external `semver::Version::parse` is abstracted as the `parse` parameter. -/
theorem c8_parsed_version_drops_first (α : Type) (parse : String → Option α)
    (r : Release) :
    r.parsed_version parse = parse (String.mk (r.version.data.drop 1)) := by
  unfold Release.parsed_version Release.version_str
  rw [without_first_drop]

/-- C4: version lookup matches the stored version strings by exact string
equality, and fails with the `CannotFindReleaseWithVersion` error kind when
no stored release carries that exact string — regardless of the host OS,
and even if a release differing only in the leading marker exists (see the
witness). -/
theorem c4_version_not_found (cr : CachedReleases) (current_os : OsType)
    (version : String) (h : ∀ r ∈ cr.inner, r.version ≠ version) :
    cr.get_asset_for_current_os_by_version current_os version =
      .error (.cannotFindReleaseWithVersion version) := by
  unfold CachedReleases.get_asset_for_current_os_by_version
  have hf : cr.inner.find? (fun x => decide (x.version = version)) = none := by
    rw [List.find?_eq_none]
    intro x hx
    simpa using h x hx
  rw [hf]

/-- C4 witness: a stored release with version `"1.2.3"` does not satisfy a
lookup of `"v1.2.3"`; the lookup errors rather than normalizing the
marker. -/
theorem c4_witness :
    CachedReleases.get_asset_for_current_os_by_version
      ⟨[⟨"1.2.3", 0, [], false⟩]⟩ OsType.linux "v1.2.3" =
      .error (.cannotFindReleaseWithVersion "v1.2.3") :=
  c4_version_not_found ⟨[⟨"1.2.3", 0, [], false⟩]⟩ OsType.linux "v1.2.3" (by decide)

/-- C5: when a release with the requested version exists but its per-OS map
has no entry for the compacted bucket of the requested OS, the lookup
returns the successful empty result `Ok(None)`, not an error. -/
theorem c5_missing_os_is_ok_none (cr : CachedReleases) (current_os : OsType)
    (version : String)
    (hex : ∃ r ∈ cr.inner, r.version = version)
    (hmiss : ∀ r ∈ cr.inner, r.version = version →
      r.get_release_for_os current_os = none) :
    cr.get_asset_for_current_os_by_version current_os version = .ok none := by
  unfold CachedReleases.get_asset_for_current_os_by_version
  cases hf : cr.inner.find? (fun x => decide (x.version = version)) with
  | none =>
    exfalso
    obtain ⟨r, hr, hv⟩ := hex
    have := List.find?_eq_none.mp hf r hr
    simp [hv] at this
  | some r =>
    show Except.ok (r.get_release_for_os current_os) = .ok none
    have hrv : r.version = version := by simpa using List.find?_some hf
    have hrm : r ∈ cr.inner := List.mem_of_find?_eq_some hf
    rw [hmiss r hrm hrv]

/-- C5 witness: a release stored only for the Windows bucket, queried for a
Macos host, yields `Ok(None)`. -/
theorem c5_witness :
    CachedReleases.get_asset_for_current_os_by_version
      ⟨[⟨"v1.0.0", 0, [(OsType.windows, ⟨⟨"t", "u"⟩, none⟩)], false⟩]⟩
      OsType.macos "v1.0.0" = .ok none :=
  c5_missing_os_is_ok_none
    ⟨[⟨"v1.0.0", 0, [(OsType.windows, ⟨⟨"t", "u"⟩, none⟩)], false⟩]⟩
    OsType.macos "v1.0.0" (by decide) (by decide)

/-- C10: when several stored releases share the requested version string,
the lookup resolves against the first one in stored index order and ignores
the later duplicates. -/
theorem c10_first_duplicate_wins (cr : CachedReleases) (pre : List Release)
    (r : Release) (post : List Release) (current_os : OsType) (version : String)
    (hinner : cr.inner = pre ++ r :: post)
    (hpre : ∀ r' ∈ pre, r'.version ≠ version) (hr : r.version = version) :
    cr.get_asset_for_current_os_by_version current_os version =
      .ok (r.get_release_for_os current_os) := by
  unfold CachedReleases.get_asset_for_current_os_by_version
  rw [hinner]
  have h1 : pre.find? (fun x => decide (x.version = version)) = none := by
    rw [List.find?_eq_none]
    intro x hx
    simpa using hpre x hx
  have h2 : (r :: post).find? (fun x => decide (x.version = version)) = some r := by
    have : (fun x => decide (x.version = version)) r = true := by simpa using hr
    simp [List.find?_cons, this]
  have hf : (pre ++ r :: post).find? (fun x => decide (x.version = version)) = some r := by
    rw [List.find?_append, h1, h2]
    rfl
  rw [hf]

/-- C10 witness: two releases share version `"v1.0.0"` with different per-OS
maps; the lookup returns the first one's artifact (the Linux artifact named
`"first"`), ignoring the duplicate. -/
theorem c10_witness :
    CachedReleases.get_asset_for_current_os_by_version
      ⟨[⟨"v1.0.0", 0, [(OsType.linux, ⟨⟨"first", "u1"⟩, none⟩)], false⟩,
        ⟨"v1.0.0", 1, [(OsType.linux, ⟨⟨"second", "u2"⟩, none⟩)], false⟩]⟩
      OsType.ubuntu "v1.0.0" =
      .ok (Release.get_release_for_os
        ⟨"v1.0.0", 0, [(OsType.linux, ⟨⟨"first", "u1"⟩, none⟩)], false⟩
        OsType.ubuntu) :=
  c10_first_duplicate_wins
    ⟨[⟨"v1.0.0", 0, [(OsType.linux, ⟨⟨"first", "u1"⟩, none⟩)], false⟩,
      ⟨"v1.0.0", 1, [(OsType.linux, ⟨⟨"second", "u2"⟩, none⟩)], false⟩]⟩
    [] ⟨"v1.0.0", 0, [(OsType.linux, ⟨⟨"first", "u1"⟩, none⟩)], false⟩
    [⟨"v1.0.0", 1, [(OsType.linux, ⟨⟨"second", "u2"⟩, none⟩)], false⟩]
    OsType.ubuntu "v1.0.0" rfl (by decide) (by decide)
